import Mathlib

/-!
Shallow embedding of nheko's `src/RoomList.cpp` (class `RoomList`), covering the
room-roster data model and the operations the specification describes:
the last-message sort (`sortRoomsByLastMessage`), invite reconciliation
(`cleanupInvites`), unread-count bookkeeping (`updateUnreadMessageCount` /
`calculateUnreadMessageCount`), room removal (`removeRoom` / `firstRoom`),
filtering (`applyFilter` / `removeFilter` / `selectFirstVisibleRoom`),
selection (`highlightSelectedRoom`) and the deferred-resort flag
(`updateRoomDescription` / `leaveEvent`).

Modelling conventions:
* `rooms_` (a `std::map<QString, QSharedPointer<RoomInfoListItem>>`) is a list of
  key/value pairs in the map's iteration (ascending key) order; a null shared
  pointer is `none`.
* `contentsLayout_` (a `QVBoxLayout`) is a list of layout items; a widget that is
  not a `RoomInfoListItem` (so `qobject_cast` yields null) is `none`.
* The same `RoomInfoListItem` object is reachable both from `rooms_` and from the
  layout.  A field written through one view and read through the other
  (only the last-message info: written via `rooms_[id]->setDescriptionMessage`,
  read via the layout in the sort) is updated in both views, keyed by room id.
  Fields written and read through a single view (`visible` via the layout,
  `pressed` and `unread` via `rooms_`) are updated in that view.
* Destroying the shared pointer held in `rooms_` (map `erase`) deletes the
  widget, which removes it from the layout as well; widget identity (the
  pointer value) is the `wid` field.
-/

namespace RoomListModel

/-- Last-message metadata of a room (`DescInfo` in the source): sender id,
message body, and the timestamp in milliseconds since the epoch
(`datetime.toMSecsSinceEpoch()`). -/
structure DescInfo where
  userid : String
  body : String
  ts : Nat
deriving DecidableEq

/-- Modelled from the spec: the state of one `RoomInfoListItem` widget
(`RoomInfoListItem.h/.cpp` are not part of the provided sources; the fields
follow spec section 3 and the accessors used by `RoomList.cpp`).  `wid` is the
widget's object identity (its pointer value), used where the source compares
widget pointers. -/
structure RoomItem where
  wid : Nat
  roomId : String
  isInvite : Bool
  unread : Int
  pressed : Bool
  visible : Bool
  lastMsg : DescInfo
deriving DecidableEq

/-- Sort key used by `RoomList::sortRoomsByLastMessage`: `0` when the last
message has an empty sender (`lastMessageInfo().userid.isEmpty()`, i.e. no room
message yet), otherwise the message timestamp. -/
def sortKey (r : RoomItem) : Nat :=
  if r.lastMsg.userid = "" then 0 else r.lastMsg.ts

/-- The room widgets among the layout items (the items on which
`qobject_cast<RoomInfoListItem *>` succeeds). -/
def roomsOf (lay : List (Option RoomItem)) : List RoomItem :=
  lay.filterMap id

/-- Distinctness of the widget objects in the layout: distinct layout slots hold
distinct `RoomInfoListItem` pointers. -/
def widNodup (lay : List (Option RoomItem)) : Prop :=
  ((roomsOf lay).map RoomItem.wid).Nodup

/-- Insertion into the
`std::multimap<uint64_t, RoomInfoListItem *, std::greater<uint64_t>>` named
`times`: the new entry is placed immediately before the first entry with a
strictly smaller key, i.e. at the upper bound of its equal-key range (the
position C++11 guarantees for multimap insertion). -/
def mmInsert (x : Nat × RoomItem) : List (Nat × RoomItem) → List (Nat × RoomItem)
  | [] => [x]
  | y :: ys => if y.1 < x.1 then x :: y :: ys else y :: mmInsert x ys

/-- First loop of `RoomList::sortRoomsByLastMessage`: walk the layout items in
order, skip null casts, and insert every room into the descending multimap
(`times.emplace(0, room)` for rooms without a message, otherwise
`times.emplace(timestamp, room)`). -/
def timesBuild : List (Option RoomItem) → List (Nat × RoomItem) → List (Nat × RoomItem)
  | [], acc => acc
  | none :: rest, acc => timesBuild rest acc
  | some r :: rest, acc => timesBuild rest (mmInsert (sortKey r, r) acc)

/-- `QBoxLayout::insertWidget(i, w)`: insert at index `i` (append when the index
is past the end). -/
def insertAtIdx (n : Nat) (x : Option RoomItem) (l : List (Option RoomItem)) :
    List (Option RoomItem) :=
  l.take n ++ x :: l.drop n

/-- `QLayout::indexOf(w)`: position of the first (here: the unique) layout item
holding the widget `a`.  The source widget is always present when this is
called; for an absent widget the model yields the list length where the source
yields `-1` (both fall in the "not equal to the target index" branch). -/
def idxOf {α : Type} [DecidableEq α] (a : α) : List α → Nat
  | [] => 0
  | b :: t => if b = a then 0 else idxOf a t + 1

/-- `QLayout::removeWidget(w)` respectively `std::map::erase`: drop the first
occurrence of `a`. -/
def eraseFirst {α : Type} [DecidableEq α] (a : α) : List α → List α
  | [] => []
  | b :: t => if b = a then t else b :: eraseFirst a t

/-- Second loop of `RoomList::sortRoomsByLastMessage`: walk the multimap in
order; each widget whose current layout index differs from its sorted position
(`distance(times.cbegin(), it)`) is removed from the layout and re-inserted at
the sorted position. -/
def repositionAux : List (Nat × RoomItem) → Nat → List (Option RoomItem) → List (Option RoomItem)
  | [], _, lay => lay
  | (_, w) :: rest, newIndex, lay =>
    if idxOf (some w) lay = newIndex then
      repositionAux rest (newIndex + 1) lay
    else
      repositionAux rest (newIndex + 1) (insertAtIdx newIndex (some w) (eraseFirst (some w) lay))

/-- `RoomList::sortRoomsByLastMessage`, acting on the `contentsLayout_` item
sequence (the function also clears `isSortPending_`; that effect is part of
`sortRoomsSlot` below). -/
def sortRoomsByLastMessage (lay : List (Option RoomItem)) : List (Option RoomItem) :=
  repositionAux (timesBuild lay []) 0 lay

/-- Keys paired with their rooms, in layout order: the sequence of
`(key, widget)` pairs the first loop of the sort feeds into the multimap. -/
def keyed (lay : List (Option RoomItem)) : List (Nat × RoomItem) :=
  lay.filterMap (fun o => o.map (fun r => (sortKey r, r)))

theorem mem_mmInsert {z x : Nat × RoomItem} :
    ∀ {l : List (Nat × RoomItem)}, z ∈ mmInsert x l ↔ z = x ∨ z ∈ l := by
  intro l
  induction l with
  | nil => simp [mmInsert]
  | cons y ys ih =>
    by_cases h : y.1 < x.1
    · simp [mmInsert, h]
    · simp only [mmInsert, if_neg h, List.mem_cons, ih]
      tauto

theorem mmInsert_pairwise {x : Nat × RoomItem} :
    ∀ {l : List (Nat × RoomItem)}, l.Pairwise (fun a b => b.1 ≤ a.1) →
      (mmInsert x l).Pairwise (fun a b => b.1 ≤ a.1) := by
  intro l
  induction l with
  | nil => simp [mmInsert]
  | cons y ys ih =>
    intro h
    rcases List.pairwise_cons.mp h with ⟨hy, hys⟩
    by_cases hlt : y.1 < x.1
    · rw [mmInsert, if_pos hlt]
      refine List.pairwise_cons.mpr ⟨?_, h⟩
      intro z hz
      rcases List.mem_cons.mp hz with rfl | hz
      · exact Nat.le_of_lt hlt
      · exact Nat.le_trans (hy z hz) (Nat.le_of_lt hlt)
    · rw [mmInsert, if_neg hlt]
      refine List.pairwise_cons.mpr ⟨?_, ih hys⟩
      intro z hz
      rcases mem_mmInsert.mp hz with rfl | hz
      · exact Nat.le_of_not_lt hlt
      · exact hy z hz

theorem filter_key_nil {k : Nat} :
    ∀ {l : List (Nat × RoomItem)}, (∀ p ∈ l, p.1 < k) →
      l.filter (fun p => p.1 = k) = [] := by
  intro l h
  induction l with
  | nil => rfl
  | cons y ys ih =>
    have hy : ¬ (y.1 = k) := Nat.ne_of_lt (h y (List.mem_cons_self y ys))
    rw [List.filter_cons, if_neg (by simp [hy])]
    exact ih (fun p hp => h p (List.mem_cons_of_mem _ hp))

theorem mmInsert_filter_ne {kx : Nat} {rx : RoomItem} {k : Nat} (hne : ¬ (kx = k)) :
    ∀ {l : List (Nat × RoomItem)},
      (mmInsert (kx, rx) l).filter (fun p => p.1 = k) = l.filter (fun p => p.1 = k) := by
  intro l
  induction l with
  | nil => simp [mmInsert, hne]
  | cons y ys ih =>
    by_cases hlt : y.1 < kx
    · rw [mmInsert, if_pos hlt]
      simp [List.filter_cons, hne]
    · rw [mmInsert, if_neg hlt]
      simp only [List.filter_cons, ih]

theorem mmInsert_filter_eq {kx : Nat} {rx : RoomItem} :
    ∀ {l : List (Nat × RoomItem)}, l.Pairwise (fun a b => b.1 ≤ a.1) →
      (mmInsert (kx, rx) l).filter (fun p => p.1 = kx)
        = l.filter (fun p => p.1 = kx) ++ [(kx, rx)] := by
  intro l
  induction l with
  | nil => simp [mmInsert]
  | cons y ys ih =>
    intro h
    rcases List.pairwise_cons.mp h with ⟨hy, hys⟩
    by_cases hlt : y.1 < kx
    · rw [mmInsert, if_pos hlt]
      have hnil : (y :: ys).filter (fun p => p.1 = kx) = [] := by
        refine filter_key_nil ?_
        intro p hp
        rcases List.mem_cons.mp hp with rfl | hp
        · exact hlt
        · exact Nat.lt_of_le_of_lt (hy p hp) hlt
      rw [List.filter_cons, hnil]
      simp
    · rw [mmInsert, if_neg hlt]
      by_cases hk : y.1 = kx
      · simp [List.filter_cons, hk, ih hys]
      · simp [List.filter_cons, hk, ih hys]

theorem timesBuild_pairwise :
    ∀ (items : List (Option RoomItem)) (acc : List (Nat × RoomItem)),
      acc.Pairwise (fun a b => b.1 ≤ a.1) →
      (timesBuild items acc).Pairwise (fun a b => b.1 ≤ a.1) := by
  intro items
  induction items with
  | nil => intro acc h; exact h
  | cons o rest ih =>
    intro acc h
    cases o with
    | none => exact ih acc h
    | some r => exact ih _ (mmInsert_pairwise h)

theorem timesBuild_fst :
    ∀ (items : List (Option RoomItem)) (acc : List (Nat × RoomItem)),
      (∀ p ∈ acc, p.1 = sortKey p.2) →
      ∀ p ∈ timesBuild items acc, p.1 = sortKey p.2 := by
  intro items
  induction items with
  | nil => intro acc h; exact h
  | cons o rest ih =>
    intro acc h
    cases o with
    | none => exact ih acc h
    | some r =>
      refine ih _ ?_
      intro p hp
      rcases mem_mmInsert.mp hp with rfl | hp
      · rfl
      · exact h p hp

theorem timesBuild_filter :
    ∀ (items : List (Option RoomItem)) (acc : List (Nat × RoomItem)),
      acc.Pairwise (fun a b => b.1 ≤ a.1) → ∀ k : Nat,
      (timesBuild items acc).filter (fun p => p.1 = k)
        = acc.filter (fun p => p.1 = k) ++ (keyed items).filter (fun p => p.1 = k) := by
  intro items
  induction items with
  | nil => intro acc _ k; simp [timesBuild, keyed]
  | cons o rest ih =>
    intro acc h k
    cases o with
    | none =>
      rw [timesBuild, ih acc h k]
      simp [keyed]
    | some r =>
      rw [timesBuild, ih _ (mmInsert_pairwise h) k]
      have hkeyed : keyed (some r :: rest) = (sortKey r, r) :: keyed rest := by
        simp [keyed]
      rw [hkeyed]
      by_cases hk : sortKey r = k
      · subst hk
        rw [mmInsert_filter_eq h, List.filter_cons]
        simp
      · rw [mmInsert_filter_ne hk, List.filter_cons]
        simp [hk]


theorem roomsOf_nil : roomsOf [] = [] := rfl

theorem roomsOf_cons_none (t : List (Option RoomItem)) :
    roomsOf (none :: t) = roomsOf t := rfl

theorem roomsOf_cons_some (r : RoomItem) (t : List (Option RoomItem)) :
    roomsOf (some r :: t) = r :: roomsOf t := rfl

theorem keyed_nil : keyed [] = [] := rfl

theorem keyed_cons_none (t : List (Option RoomItem)) :
    keyed (none :: t) = keyed t := rfl

theorem keyed_cons_some (r : RoomItem) (t : List (Option RoomItem)) :
    keyed (some r :: t) = (sortKey r, r) :: keyed t := rfl

theorem keyed_map_snd : ∀ (lay : List (Option RoomItem)),
    (keyed lay).map Prod.snd = roomsOf lay := by
  intro lay
  induction lay with
  | nil => rfl
  | cons o t ih =>
    cases o with
    | none => rw [keyed_cons_none, roomsOf_cons_none, ih]
    | some r => rw [keyed_cons_some, roomsOf_cons_some, List.map_cons, ih]

theorem keyed_fst {lay : List (Option RoomItem)} :
    ∀ p ∈ keyed lay, p.1 = sortKey p.2 := by
  intro p hp
  rcases List.mem_filterMap.mp hp with ⟨o, _, he⟩
  cases o with
  | none => simp at he
  | some r =>
    simp only [Option.map_some'] at he
    rw [← Option.some.inj he]

theorem mmInsert_perm (x : Nat × RoomItem) :
    ∀ (l : List (Nat × RoomItem)), (mmInsert x l).Perm (x :: l) := by
  intro l
  induction l with
  | nil => exact List.Perm.refl _
  | cons y ys ih =>
    by_cases hlt : y.1 < x.1
    · rw [mmInsert, if_pos hlt]
    · rw [mmInsert, if_neg hlt]
      exact (List.Perm.cons y ih).trans (List.Perm.swap x y ys)

theorem timesBuild_perm_aux :
    ∀ (items : List (Option RoomItem)) (acc : List (Nat × RoomItem)),
      (timesBuild items acc).Perm (acc ++ keyed items) := by
  intro items
  induction items with
  | nil => intro acc; simp [timesBuild, keyed_nil]
  | cons o rest ih =>
    intro acc
    cases o with
    | none =>
      rw [timesBuild, keyed_cons_none]
      exact ih acc
    | some r =>
      rw [timesBuild, keyed_cons_some]
      refine (ih _).trans ?_
      refine (List.Perm.append_right (keyed rest) (mmInsert_perm _ acc)).trans ?_
      exact (List.perm_middle).symm

theorem timesBuild_perm (lay : List (Option RoomItem)) :
    (timesBuild lay []).Perm (keyed lay) := by
  simpa using timesBuild_perm_aux lay []

theorem idxOf_append_right {α : Type} [DecidableEq α] {a : α} :
    ∀ {l1 : List α} (l2 : List α), a ∉ l1 →
      idxOf a (l1 ++ l2) = l1.length + idxOf a l2 := by
  intro l1
  induction l1 with
  | nil => intro l2 _; simp [idxOf]
  | cons b t ih =>
    intro l2 h
    have hba : ¬ (b = a) := fun he => h (he ▸ List.mem_cons_self b t)
    rw [List.cons_append, idxOf, if_neg hba, ih l2 (fun hm => h (List.mem_cons_of_mem _ hm))]
    simp [Nat.add_assoc, Nat.add_comm 1]

theorem eq_cons_of_idxOf_zero {α : Type} [DecidableEq α] {a : α} {l : List α}
    (hm : a ∈ l) (h : idxOf a l = 0) : ∃ t, l = a :: t := by
  cases l with
  | nil => cases hm
  | cons b t =>
    by_cases hba : b = a
    · exact ⟨t, by rw [hba]⟩
    · rw [idxOf, if_neg hba] at h
      exact absurd h (Nat.succ_ne_zero _)

theorem eraseFirst_append_right {α : Type} [DecidableEq α] {a : α} :
    ∀ {l1 : List α} (l2 : List α), a ∉ l1 →
      eraseFirst a (l1 ++ l2) = l1 ++ eraseFirst a l2 := by
  intro l1
  induction l1 with
  | nil => intro l2 _; rfl
  | cons b t ih =>
    intro l2 h
    have hba : ¬ (b = a) := fun he => h (he ▸ List.mem_cons_self b t)
    rw [List.cons_append, eraseFirst, if_neg hba,
      ih l2 (fun hm => h (List.mem_cons_of_mem _ hm)), List.cons_append]

theorem perm_cons_eraseFirst {α : Type} [DecidableEq α] {a : α} :
    ∀ {l : List α}, a ∈ l → l.Perm (a :: eraseFirst a l) := by
  intro l
  induction l with
  | nil => intro hm; cases hm
  | cons b t ih =>
    intro hm
    by_cases hba : b = a
    · subst hba
      rw [eraseFirst, if_pos rfl]
    · rw [eraseFirst, if_neg hba]
      have hat : a ∈ t := by
        rcases List.mem_cons.mp hm with he | hat
        · exact absurd he.symm hba
        · exact hat
      exact (List.Perm.cons b (ih hat)).trans (List.Perm.swap a b _)

theorem roomsOf_eraseFirst (w : RoomItem) :
    ∀ (l : List (Option RoomItem)),
      roomsOf (eraseFirst (some w) l) = eraseFirst w (roomsOf l) := by
  intro l
  induction l with
  | nil => rfl
  | cons o t ih =>
    cases o with
    | none =>
      rw [eraseFirst, if_neg (by simp), roomsOf_cons_none, roomsOf_cons_none, ih]
    | some r =>
      by_cases hrw : r = w
      · subst hrw
        rw [eraseFirst, if_pos rfl, roomsOf_cons_some, eraseFirst, if_pos rfl]
      · rw [eraseFirst, if_neg (by simp [hrw]), roomsOf_cons_some, roomsOf_cons_some,
          eraseFirst, if_neg hrw, ih]

theorem filter_isNone_eraseFirst (w : RoomItem) :
    ∀ (l : List (Option RoomItem)),
      (eraseFirst (some w) l).filter Option.isNone = l.filter Option.isNone := by
  intro l
  induction l with
  | nil => rfl
  | cons o t ih =>
    cases o with
    | none =>
      rw [eraseFirst, if_neg (by simp)]
      simp [List.filter_cons, ih]
    | some r =>
      by_cases hrw : r = w
      · subst hrw
        rw [eraseFirst, if_pos rfl]
        simp [List.filter_cons]
      · rw [eraseFirst, if_neg (by simp [hrw])]
        simp [List.filter_cons, ih]

theorem filter_isNone_of_roomsOf_nil :
    ∀ {l : List (Option RoomItem)}, roomsOf l = [] →
      l.filter Option.isNone = l := by
  intro l
  induction l with
  | nil => intro _; rfl
  | cons o t ih =>
    intro h
    cases o with
    | none =>
      rw [roomsOf_cons_none] at h
      simp [List.filter_cons, ih h]
    | some r => simp [roomsOf_cons_some] at h

theorem repositionAux_go :
    ∀ (times : List (Nat × RoomItem)) (pre : List RoomItem) (rest : List (Option RoomItem)),
      ((pre ++ roomsOf rest).map RoomItem.wid).Nodup →
      (roomsOf rest).Perm (times.map Prod.snd) →
      repositionAux times pre.length (pre.map some ++ rest)
        = (pre ++ times.map Prod.snd).map some ++ rest.filter Option.isNone := by
  intro times
  induction times with
  | nil =>
    intro pre rest _ hperm
    have h0 : roomsOf rest = [] := List.Perm.eq_nil (by simpa using hperm)
    rw [repositionAux, filter_isNone_of_roomsOf_nil h0]
    simp
  | cons x ts ih =>
    obtain ⟨kx, w⟩ := x
    intro pre rest hnd hperm
    rw [List.map_cons] at hperm
    have hw : w ∈ roomsOf rest := hperm.mem_iff.mpr (List.mem_cons_self _ _)
    have hwl : some w ∈ rest := by
      rcases List.mem_filterMap.mp hw with ⟨o, ho, he⟩
      have ho2 : o = some w := he
      rwa [ho2] at ho
    have hnd' : (pre.map RoomItem.wid ++ (roomsOf rest).map RoomItem.wid).Nodup := by
      rwa [← List.map_append]
    have hdisj := (List.nodup_append.mp hnd').2.2
    have hwpre : w ∉ pre := fun hmem =>
      hdisj (List.mem_map_of_mem RoomItem.wid hmem) (List.mem_map_of_mem RoomItem.wid hw)
    have hwpre' : some w ∉ pre.map some := by
      intro hm
      rcases List.mem_map.mp hm with ⟨b, hb, he⟩
      have hbw : b = w := Option.some.inj he
      exact hwpre (hbw ▸ hb)
    have hidx : idxOf (some w) (pre.map some ++ rest) = pre.length + idxOf (some w) rest := by
      rw [idxOf_append_right rest hwpre']
      simp
    by_cases h0 : idxOf (some w) rest = 0
    · obtain ⟨rest', hrest⟩ := eq_cons_of_idxOf_zero hwl h0
      subst hrest
      rw [repositionAux, if_pos (by simp [hidx, h0])]
      have hshape : pre.map some ++ some w :: rest' = (pre ++ [w]).map some ++ rest' := by
        simp
      have hlen : pre.length + 1 = (pre ++ [w]).length := by simp
      rw [hshape, hlen]
      have hnd2 : (((pre ++ [w]) ++ roomsOf rest').map RoomItem.wid).Nodup := by
        have he : (pre ++ [w]) ++ roomsOf rest' = pre ++ roomsOf (some w :: rest') := by
          rw [roomsOf_cons_some, List.append_assoc, List.singleton_append]
        rw [he]
        exact hnd
      have hperm2 : (roomsOf rest').Perm (ts.map Prod.snd) := by
        have hc : (w :: roomsOf rest').Perm (w :: ts.map Prod.snd) := by
          rw [← roomsOf_cons_some]
          exact hperm
        exact hc.cons_inv
      rw [ih (pre ++ [w]) rest' hnd2 hperm2]
      simp [List.filter_cons, List.append_assoc]
    · rw [repositionAux, if_neg (by rw [hidx]; omega)]
      have herase : eraseFirst (some w) (pre.map some ++ rest)
          = pre.map some ++ eraseFirst (some w) rest := eraseFirst_append_right rest hwpre'
      have hins : insertAtIdx pre.length (some w) (pre.map some ++ eraseFirst (some w) rest)
          = (pre ++ [w]).map some ++ eraseFirst (some w) rest := by
        unfold insertAtIdx
        rw [List.take_left' (by simp), List.drop_left' (by simp)]
        simp
      rw [herase, hins]
      have hpr : (roomsOf rest).Perm (w :: eraseFirst w (roomsOf rest)) := perm_cons_eraseFirst hw
      have hnd2 : (((pre ++ [w]) ++ roomsOf (eraseFirst (some w) rest)).map RoomItem.wid).Nodup := by
        rw [roomsOf_eraseFirst]
        have hp2 : (pre ++ roomsOf rest).Perm ((pre ++ [w]) ++ eraseFirst w (roomsOf rest)) := by
          rw [List.append_assoc, List.singleton_append]
          exact List.Perm.append_left pre hpr
        exact ((hp2.map RoomItem.wid).nodup_iff).mp hnd
      have hperm2 : (roomsOf (eraseFirst (some w) rest)).Perm (ts.map Prod.snd) := by
        rw [roomsOf_eraseFirst]
        have hc : (w :: eraseFirst w (roomsOf rest)).Perm (w :: ts.map Prod.snd) :=
          hpr.symm.trans hperm
        exact hc.cons_inv
      have hlen : pre.length + 1 = (pre ++ [w]).length := by simp
      rw [hlen, ih (pre ++ [w]) (eraseFirst (some w) rest) hnd2 hperm2,
        filter_isNone_eraseFirst]
      simp [List.filter_cons, List.append_assoc]

theorem roomsOf_append (l1 l2 : List (Option RoomItem)) :
    roomsOf (l1 ++ l2) = roomsOf l1 ++ roomsOf l2 :=
  List.filterMap_append l1 l2 id

theorem roomsOf_map_some : ∀ (xs : List RoomItem), roomsOf (xs.map some) = xs := by
  intro xs
  induction xs with
  | nil => rfl
  | cons r t ih => rw [List.map_cons, roomsOf_cons_some, ih]

theorem roomsOf_filter_isNone : ∀ (l : List (Option RoomItem)),
    roomsOf (l.filter Option.isNone) = [] := by
  intro l
  induction l with
  | nil => rfl
  | cons o t ih =>
    cases o with
    | none => simpa [List.filter_cons] using ih
    | some r => simpa [List.filter_cons] using ih

theorem sortRooms_eq (lay : List (Option RoomItem)) (hnd : widNodup lay) :
    sortRoomsByLastMessage lay
      = ((timesBuild lay []).map Prod.snd).map some ++ lay.filter Option.isNone := by
  have hp : ((timesBuild lay []).map Prod.snd).Perm (roomsOf lay) := by
    have h1 := (timesBuild_perm lay).map Prod.snd
    rwa [keyed_map_snd] at h1
  have hgo := repositionAux_go (timesBuild lay []) [] lay (by simpa using hnd) hp.symm
  simpa [sortRoomsByLastMessage] using hgo

theorem roomsOf_sortRooms (lay : List (Option RoomItem)) (hnd : widNodup lay) :
    roomsOf (sortRoomsByLastMessage lay) = (timesBuild lay []).map Prod.snd := by
  rw [sortRooms_eq lay hnd, roomsOf_append, roomsOf_map_some, roomsOf_filter_isNone,
    List.append_nil]

theorem times_sorted (lay : List (Option RoomItem)) :
    ((timesBuild lay []).map Prod.snd).Pairwise (fun a b => sortKey b ≤ sortKey a) := by
  have hpw := timesBuild_pairwise lay [] List.Pairwise.nil
  have hfst := timesBuild_fst lay [] (by intro q hq; cases hq)
  rw [List.pairwise_map]
  refine hpw.imp_of_mem ?_
  intro a b ha hb hr
  calc sortKey b.2 = b.1 := (hfst b hb).symm
    _ ≤ a.1 := hr
    _ = sortKey a.2 := hfst a ha

theorem times_filter_key (lay : List (Option RoomItem)) (k : Nat) :
    ((timesBuild lay []).map Prod.snd).filter (fun r => sortKey r = k)
      = (roomsOf lay).filter (fun r => sortKey r = k) := by
  have hmain := timesBuild_filter lay [] List.Pairwise.nil k
  simp only [List.filter_nil, List.nil_append] at hmain
  have hfst := timesBuild_fst lay [] (by intro q hq; cases hq)
  have h1 : ((timesBuild lay []).map Prod.snd).filter (fun r => sortKey r = k)
      = ((timesBuild lay []).filter (fun p => p.1 = k)).map Prod.snd := by
    rw [List.filter_map]
    congr 1
    apply List.filter_congr
    intro p hp
    simp [Function.comp, hfst p hp]
  have h2 : ((keyed lay).filter (fun p => p.1 = k)).map Prod.snd
      = (roomsOf lay).filter (fun r => sortKey r = k) := by
    rw [← keyed_map_snd lay, List.filter_map]
    congr 1
    apply List.filter_congr
    intro p hp
    simp [Function.comp, keyed_fst p hp]
  rw [h1, hmain, h2]

theorem sorted_filter_ext :
    ∀ (l1 l2 : List (Nat × RoomItem)),
      l1.Pairwise (fun a b => b.1 ≤ a.1) → l2.Pairwise (fun a b => b.1 ≤ a.1) →
      (∀ k : Nat, l1.filter (fun p => p.1 = k) = l2.filter (fun p => p.1 = k)) →
      l1 = l2 := by
  intro l1
  induction l1 with
  | nil =>
    intro l2 _ _ hf
    cases l2 with
    | nil => rfl
    | cons b t =>
      have hb := hf b.1
      simp [List.filter_cons] at hb
  | cons a t1 ih =>
    intro l2 h1 h2 hf
    cases l2 with
    | nil =>
      have hb := hf a.1
      simp [List.filter_cons] at hb
    | cons b t2 =>
      rcases List.pairwise_cons.mp h1 with ⟨ha, h1t⟩
      rcases List.pairwise_cons.mp h2 with ⟨hb, h2t⟩
      have hmem_a : a ∈ (b :: t2).filter (fun p => p.1 = a.1) := by
        rw [← hf a.1]
        simp [List.filter_cons]
      have hale : a.1 ≤ b.1 := by
        rcases List.mem_cons.mp (List.mem_of_mem_filter hmem_a) with he | hmem
        · rw [he]
        · exact hb a hmem
      have hmem_b : b ∈ (a :: t1).filter (fun p => p.1 = b.1) := by
        rw [hf b.1]
        simp [List.filter_cons]
      have hble : b.1 ≤ a.1 := by
        rcases List.mem_cons.mp (List.mem_of_mem_filter hmem_b) with he | hmem
        · rw [he]
        · exact ha b hmem
      have hkey : a.1 = b.1 := Nat.le_antisymm hale hble
      have hhead := hf a.1
      rw [List.filter_cons, List.filter_cons, if_pos (by simp), if_pos (by simp [hkey])] at hhead
      injection hhead with hab htail
      subst hab
      congr 1
      apply ih t2 h1t h2t
      intro k
      by_cases hk : a.1 = k
      · subst hk
        exact htail
      · have hother := hf k
        rw [List.filter_cons, List.filter_cons, if_neg (by simp [hk]),
          if_neg (by simp [hk])] at hother
        exact hother

theorem keyed_eq_map : ∀ (lay : List (Option RoomItem)),
    keyed lay = (roomsOf lay).map (fun r => (sortKey r, r)) := by
  intro lay
  induction lay with
  | nil => rfl
  | cons o t ih =>
    cases o with
    | none => rw [keyed_cons_none, roomsOf_cons_none, ih]
    | some r => rw [keyed_cons_some, roomsOf_cons_some, List.map_cons, ih]

theorem filter_isNone_map_some (xs : List RoomItem) :
    (xs.map some).filter Option.isNone = [] := by
  induction xs with
  | nil => rfl
  | cons r t ih => simp [List.filter_cons, ih]

theorem filter_isNone_idem (l : List (Option RoomItem)) :
    (l.filter Option.isNone).filter Option.isNone = l.filter Option.isNone := by
  induction l with
  | nil => rfl
  | cons o t ih =>
    cases o with
    | none => simp [List.filter_cons, ih]
    | some r => simp [List.filter_cons, ih]

/-- Shape of the layout right after a sort: the room widgets occupy the leading
positions in descending key order, followed by the non-room items. -/
def LayoutSorted (lay : List (Option RoomItem)) : Prop :=
  lay = (roomsOf lay).map some ++ lay.filter Option.isNone ∧
  (roomsOf lay).Pairwise (fun a b => sortKey b ≤ sortKey a)

theorem sortRooms_layoutSorted (lay : List (Option RoomItem)) (hnd : widNodup lay) :
    LayoutSorted (sortRoomsByLastMessage lay) := by
  constructor
  · rw [sortRooms_eq lay hnd, roomsOf_append, roomsOf_map_some, roomsOf_filter_isNone,
      List.append_nil, List.filter_append, filter_isNone_map_some, filter_isNone_idem,
      List.nil_append]
  · rw [roomsOf_sortRooms lay hnd]
    exact times_sorted lay

theorem widNodup_sortRooms (lay : List (Option RoomItem)) (hnd : widNodup lay) :
    widNodup (sortRoomsByLastMessage lay) := by
  unfold widNodup at hnd ⊢
  rw [roomsOf_sortRooms lay hnd]
  have hp : ((timesBuild lay []).map Prod.snd).Perm (roomsOf lay) := by
    have h1 := (timesBuild_perm lay).map Prod.snd
    rwa [keyed_map_snd] at h1
  exact ((hp.map RoomItem.wid).nodup_iff).mpr hnd

theorem sortRooms_id (lay : List (Option RoomItem)) (hnd : widNodup lay)
    (hs : LayoutSorted lay) : sortRoomsByLastMessage lay = lay := by
  obtain ⟨hshape, hpw⟩ := hs
  have hkeyedpw : (keyed lay).Pairwise (fun a b => b.1 ≤ a.1) := by
    rw [keyed_eq_map, List.pairwise_map]
    exact hpw
  have htimes : timesBuild lay [] = keyed lay := by
    apply sorted_filter_ext _ _ (timesBuild_pairwise lay [] List.Pairwise.nil) hkeyedpw
    intro k
    have h := timesBuild_filter lay [] List.Pairwise.nil k
    simpa using h
  rw [sortRooms_eq lay hnd, htimes, keyed_map_snd, ← hshape]

/-- State of the `RoomList` widget: the `rooms_` map (entries listed in the
map's ascending-key iteration order), the `contentsLayout_` item sequence, the
currently highlighted room id (`selectedRoom_`, empty string when unset) and
the deferred-resort flag (`isSortPending_`). -/
structure RoomListState where
  rooms_ : List (String × Option RoomItem)
  layout : List (Option RoomItem)
  selectedRoom_ : String
  isSortPending_ : Bool
deriving DecidableEq

/-- Keys of a `rooms_`-style map or of a `std::map<QString, bool>` argument. -/
def keysOf {β : Type} (l : List (String × β)) : List String :=
  l.map Prod.fst

/-- Modelled from the spec: `RoomList::roomExists` (declared in the header,
which is not among the provided sources) — whether `rooms_` contains an entry
for the id; the spec treats an absent id as the `NotFound` case. -/
def roomExists (rooms : List (String × Option RoomItem)) (rid : String) : Bool :=
  decide (rid ∈ keysOf rooms)

/-- `std::map::find` followed by dereference: the value stored under a key. -/
def mapLookup (rooms : List (String × Option RoomItem)) (rid : String) :
    Option (Option RoomItem) :=
  match rooms with
  | [] => none
  | (k, v) :: t => if k = rid then some v else mapLookup t rid

/-- `rooms_.erase(room_id)`: drop the entry with the given key (a `std::map`
holds at most one). -/
def mapErase (rooms : List (String × Option RoomItem)) (rid : String) :
    List (String × Option RoomItem) :=
  rooms.filter (fun e => ¬ (e.1 = rid))

/-- Erasing the shared pointer stored under `rid` destroys the owned
`RoomInfoListItem`, and deleting a `QWidget` removes it from its layout: the
layout loses the item holding that widget. -/
def layoutDropWidget (rooms : List (String × Option RoomItem))
    (lay : List (Option RoomItem)) (rid : String) : List (Option RoomItem) :=
  match mapLookup rooms rid with
  | some (some it) =>
    lay.filter (fun o =>
      match o with
      | none => true
      | some x => ¬ (x.wid = it.wid))
  | _ => lay

/-- `RoomList::firstRoom` (total model): the first entry of `rooms_` in map
order whose item is non-null, skipping null items as the source loop does.
`none` is returned exactly in the states where the source loop dereferences the
end iterator (see `firstRoomScanSafe`). -/
def firstRoom : List (String × Option RoomItem) → Option (String × RoomItem)
  | [] => none
  | (_, none) :: rest => firstRoom rest
  | (k, some it) :: _ => some (k, it)

/-- Safety of the iterator scan in `RoomList::firstRoom`.  The loop condition
`firstRoom->second.isNull() && firstRoom != rooms_.end()` dereferences the
iterator before comparing it with `end()`: on an empty roster the very first
condition evaluation dereferences `end()`, on a null entry the scan advances,
and on a non-null entry the loop stops and the following dereferences are in
bounds. -/
def firstRoomScanSafe : List (String × Option RoomItem) → Bool
  | [] => false
  | (_, none) :: rest => firstRoomScanSafe rest
  | (_, some _) :: _ => true

/-- `room.second->setPressedState(b)` on the entry stored under key `k`. -/
def setPressedInMap (rooms : List (String × Option RoomItem)) (k : String) (b : Bool) :
    List (String × Option RoomItem) :=
  rooms.map (fun e =>
    if e.1 = k then (e.1, e.2.map (fun it => { it with pressed := b })) else e)

/-- `RoomList::removeRoom(room_id, reset)`: erase the entry (destroying its
widget); if the roster became empty or `reset` is false, stop; otherwise take
`firstRoom()`, and unless its item is null (impossible when the scan is safe),
mark it pressed and emit `roomChanged` with its id (the second component). -/
def removeRoom (s : RoomListState) (rid : String) (reset : Bool) :
    RoomListState × Option String :=
  if (mapErase s.rooms_ rid).isEmpty || !reset then
    ({ s with rooms_ := mapErase s.rooms_ rid,
              layout := layoutDropWidget s.rooms_ s.layout rid }, none)
  else
    match firstRoom (mapErase s.rooms_ rid) with
    | none =>
      ({ s with rooms_ := mapErase s.rooms_ rid,
                layout := layoutDropWidget s.rooms_ s.layout rid }, none)
    | some (k, _) =>
      ({ s with rooms_ := setPressedInMap (mapErase s.rooms_ rid) k true,
                layout := layoutDropWidget s.rooms_ s.layout rid }, some k)

/-- The exact condition under which `RoomList::removeRoom` reaches the
`firstRoom()` call: the post-erase roster is non-empty and `reset` holds. -/
def removeRoomReachesFirstRoom (s : RoomListState) (rid : String) (reset : Bool) : Bool :=
  !((mapErase s.rooms_ rid).isEmpty || !reset)

/-- Loop body of `RoomList::calculateUnreadMessageCount`: sum of the unread
counts of the non-null items of `rooms_`, in map order. -/
def unreadSum : List (String × Option RoomItem) → Int
  | [] => 0
  | (_, none) :: rest => unreadSum rest
  | (_, some it) :: rest => it.unread + unreadSum rest

/-- `RoomList::updateUnreadMessageCount(roomid, count)`: warn and return when
the id is unknown; otherwise store the count on the item (a
`RoomInfoListItem` setter, modelled from the spec) and emit the recomputed
total (`calculateUnreadMessageCount`), returned as the second component. -/
def updateUnreadMessageCount (s : RoomListState) (rid : String) (count : Int) :
    RoomListState × Option Int :=
  if roomExists s.rooms_ rid = false then (s, none)
  else
    ({ s with rooms_ := s.rooms_.map (fun e =>
        if e.1 = rid then (e.1, e.2.map (fun it => { it with unread := count })) else e) },
     some (unreadSum (s.rooms_.map (fun e =>
        if e.1 = rid then (e.1, e.2.map (fun it => { it with unread := count })) else e))))

/-- `RoomList::cleanupInvites(invites)`: return immediately on an empty map;
otherwise `utils::erase_if` (Utils.h is not among the provided sources;
modelled from the spec as removal of every entry whose predicate holds) drops
every non-null invite item whose id is not a key of `invites`.  Destroyed
widgets leave the layout as well. -/
def cleanupInvites (s : RoomListState) (invites : List (String × Bool)) : RoomListState :=
  if invites.length = 0 then s
  else
    { s with
      rooms_ := s.rooms_.filter (fun e =>
        match e.2 with
        | none => true
        | some it => ¬ (it.isInvite = true ∧ e.1 ∉ keysOf invites)),
      layout := s.layout.filter (fun o =>
        match o with
        | none => true
        | some it =>
          ¬ ((s.rooms_.filterMap (fun e =>
                match e.2 with
                | some x =>
                  if x.isInvite = true ∧ e.1 ∉ keysOf invites then some x.wid else none
                | none => none)).contains it.wid = true)) }

/-- `RoomList::highlightSelectedRoom(room_id)`: emit `roomChanged(room_id)`
first (the returned signal list), then, only when the id exists, clear the
pressed state of every other item, set it on the matching entry, and store the
id in `selectedRoom_`. -/
def highlightSelectedRoom (s : RoomListState) (rid : String) :
    RoomListState × List String :=
  if roomExists s.rooms_ rid = false then (s, [rid])
  else
    ({ s with
        rooms_ := s.rooms_.map (fun e =>
          if e.1 = rid then (e.1, e.2.map (fun it => { it with pressed := true }))
          else (e.1, e.2.map (fun it => { it with pressed := false }))),
        selectedRoom_ := rid }, [rid])

/-- Visibility loop of `RoomList::applyFilter`: `show()` the items whose room
id is a key of the filter map, `hide()` the rest (null casts skipped). -/
def applyVisibility (lay : List (Option RoomItem)) (flt : List (String × Bool)) :
    List (Option RoomItem) :=
  lay.map (fun o => o.map (fun it =>
    if it.roomId ∈ keysOf flt then { it with visible := true }
    else { it with visible := false }))

/-- Scan of `RoomList::selectFirstVisibleRoom`: the first layout item that is
a room and is visible. -/
def firstVisible : List (Option RoomItem) → Option RoomItem
  | [] => none
  | none :: rest => firstVisible rest
  | some it :: rest => if it.visible = true then some it else firstVisible rest

/-- `RoomList::selectFirstVisibleRoom`: highlight the first visible room, if
any; otherwise do nothing. -/
def selectFirstVisibleRoom (s : RoomListState) : RoomListState × List String :=
  match firstVisible s.layout with
  | none => (s, [])
  | some it => highlightSelectedRoom s it.roomId

/-- `RoomList::applyFilter(filter)`: apply the visibility loop; if a room is
selected and still a key of the filter, stop; otherwise select the first
visible room. -/
def applyFilter (s : RoomListState) (flt : List (String × Bool)) :
    RoomListState × List String :=
  if ¬ (s.selectedRoom_ = "") ∧ s.selectedRoom_ ∈ keysOf flt then
    ({ s with layout := applyVisibility s.layout flt }, [])
  else
    selectFirstVisibleRoom { s with layout := applyVisibility s.layout flt }

/-- `RoomList::removeFilter()`: `show()` every room widget in the layout and
nothing else. -/
def removeFilter (s : RoomListState) : RoomListState :=
  { s with layout := s.layout.map (fun o => o.map (fun it => { it with visible := true })) }

/-- The `setDescriptionMessage` write in `RoomList::updateRoomDescription`:
the item stored under the id is the same object as the layout item with that
room id, so the new last-message info is seen through both views. -/
def setDescEverywhere (s : RoomListState) (rid : String) (info : DescInfo) : RoomListState :=
  { s with
    rooms_ := s.rooms_.map (fun e =>
      if e.1 = rid then (e.1, e.2.map (fun it => { it with lastMsg := info })) else e),
    layout := s.layout.map (fun o => o.map (fun it =>
      if it.roomId = rid then { it with lastMsg := info } else it)) }

/-- The `sortRoomsByLastMessage` slot on the whole state: clear
`isSortPending_` (first statement of the member function) and re-sort the
layout. -/
def sortRoomsSlot (s : RoomListState) : RoomListState :=
  { s with isSortPending_ := false, layout := sortRoomsByLastMessage s.layout }

/-- `RoomList::updateRoomDescription(roomid, info)`: warn and return on an
unknown id; otherwise store the new description on the item; then either defer
the resort (`isSortPending_ := true` while the pointer is over the list) or
clear the flag and sort immediately (the emitted `sortRoomsByLastMessage`). -/
def updateRoomDescription (s : RoomListState) (rid : String) (info : DescInfo)
    (underMouse : Bool) : RoomListState :=
  if roomExists s.rooms_ rid = false then s
  else
    if underMouse then { setDescEverywhere s rid info with isSortPending_ := true }
    else sortRoomsSlot (setDescEverywhere s rid info)

/-- `RoomList::leaveEvent`: schedules a single-shot timer (when
`isSortPending_` holds) but mutates no roster state itself; the later firing
of a timer is the separate `Ev.timerFire` event. -/
def leaveEvent (s : RoomListState) : RoomListState := s

/-- Events of the deferred-resort protocol: a description update (with the
hover state at that moment), a hover-exit, and the firing of a previously
scheduled single-shot timer (which invokes the `sortRoomsByLastMessage`
slot). -/
inductive Ev where
  | descUpdate (rid : String) (info : DescInfo) (underMouse : Bool)
  | hoverExit
  | timerFire
deriving DecidableEq

def stepEv (s : RoomListState) : Ev → RoomListState
  | Ev.descUpdate rid info um => updateRoomDescription s rid info um
  | Ev.hoverExit => leaveEvent s
  | Ev.timerFire => sortRoomsSlot s

def stepTrace (s : RoomListState) : List Ev → RoomListState
  | [] => s
  | e :: t => stepTrace (stepEv s e) t

/-- Invariant of the event system: the layout holds distinct widget objects,
and whenever no resort is pending the layout is in sorted shape. -/
def Inv (s : RoomListState) : Prop :=
  widNodup s.layout ∧ (s.isSortPending_ = false → LayoutSorted s.layout)

theorem roomsOf_map_optionMap (f : RoomItem → RoomItem) :
    ∀ (lay : List (Option RoomItem)),
      roomsOf (lay.map (Option.map f)) = (roomsOf lay).map f := by
  intro lay
  induction lay with
  | nil => rfl
  | cons o t ih =>
    cases o with
    | none =>
      simp only [List.map_cons, Option.map_none', roomsOf_cons_none, ih]
    | some r =>
      simp only [List.map_cons, Option.map_some', roomsOf_cons_some, ih]

theorem widNodup_map (f : RoomItem → RoomItem) (hf : ∀ it, (f it).wid = it.wid)
    (lay : List (Option RoomItem)) (hnd : widNodup lay) :
    widNodup (lay.map (Option.map f)) := by
  unfold widNodup at hnd ⊢
  rw [roomsOf_map_optionMap, List.map_map,
    show RoomItem.wid ∘ f = RoomItem.wid from funext hf]
  exact hnd

theorem inv_sortRoomsSlot {s : RoomListState} (hnd : widNodup s.layout) :
    Inv (sortRoomsSlot s) :=
  ⟨widNodup_sortRooms _ hnd, fun _ => sortRooms_layoutSorted _ hnd⟩

theorem inv_stepEv {s : RoomListState} (e : Ev) (h : Inv s) : Inv (stepEv s e) := by
  cases e with
  | hoverExit => exact h
  | timerFire => exact inv_sortRoomsSlot h.1
  | descUpdate rid info um =>
    show Inv (updateRoomDescription s rid info um)
    unfold updateRoomDescription
    by_cases hex : roomExists s.rooms_ rid = false
    · rw [if_pos hex]
      exact h
    · rw [if_neg hex]
      have hnd1 : widNodup ((setDescEverywhere s rid info).layout) := by
        show widNodup (s.layout.map (Option.map (fun it =>
          if it.roomId = rid then { it with lastMsg := info } else it)))
        refine widNodup_map _ ?_ _ h.1
        intro it
        by_cases hid : it.roomId = rid <;> simp [hid]
      by_cases hum : um
      · rw [if_pos hum]
        refine ⟨hnd1, ?_⟩
        intro hpend
        simp at hpend
      · rw [if_neg hum]
        exact inv_sortRoomsSlot hnd1

theorem inv_stepTrace {s : RoomListState} (h : Inv s) :
    ∀ (trace : List Ev), Inv (stepTrace s trace) := by
  intro trace
  induction trace generalizing s with
  | nil => exact h
  | cons e t ih => exact ih (inv_stepEv e h)

theorem sortRoomsSlot_id {s : RoomListState} (hp : s.isSortPending_ = false)
    (hnd : widNodup s.layout) (hls : LayoutSorted s.layout) : sortRoomsSlot s = s := by
  unfold sortRoomsSlot
  rw [sortRooms_id _ hnd hls]
  cases s with
  | mk rooms lay sel pend =>
    change pend = false at hp
    subst hp
    rfl

instance (lay : List (Option RoomItem)) : Decidable (widNodup lay) := by
  unfold widNodup
  infer_instance

instance (lay : List (Option RoomItem)) : Decidable (LayoutSorted lay) := by
  unfold LayoutSorted
  infer_instance

/-- C1: for every layout state whose room widgets are distinct objects,
`sortRoomsByLastMessage` reorders the rooms into descending order of the
last-activity key (`sortKey`, which is 0 for a room with no message yet, so
such rooms sort after rooms with a later activity key), and for every key
value the rooms carrying that key keep exactly the relative order they had
before the sort (stable sort). -/
theorem sortRoomsByLastMessage_stable_descending (lay : List (Option RoomItem))
    (hnd : widNodup lay) :
    (roomsOf (sortRoomsByLastMessage lay)).Pairwise (fun a b => sortKey b ≤ sortKey a) ∧
    ∀ k : Nat,
      (roomsOf (sortRoomsByLastMessage lay)).filter (fun r => sortKey r = k)
        = (roomsOf lay).filter (fun r => sortKey r = k) := by
  constructor
  · rw [roomsOf_sortRooms lay hnd]
    exact times_sorted lay
  · intro k
    rw [roomsOf_sortRooms lay hnd]
    exact times_filter_key lay k

/-- Example items: itemB1 has no message yet (empty sender, so key 0 in spite
of its stored timestamp); itemA1 and itemC1 tie at key 50. -/
def itemA1 : RoomItem :=
  ⟨1, "!a", false, 0, false, true, ⟨"@u", "m1", 50⟩⟩

def itemB1 : RoomItem :=
  ⟨2, "!b", false, 0, false, true, ⟨"", "m2", 999⟩⟩

def itemC1 : RoomItem :=
  ⟨3, "!c", false, 0, false, true, ⟨"@v", "m3", 50⟩⟩

def exLayC1 : List (Option RoomItem) :=
  [some itemB1, none, some itemA1, some itemC1]

theorem sortRoomsByLastMessage_stable_descending_witness :
    widNodup exLayC1 ∧
    (roomsOf (sortRoomsByLastMessage exLayC1)).Pairwise (fun a b => sortKey b ≤ sortKey a) ∧
    (roomsOf (sortRoomsByLastMessage exLayC1)).filter (fun r => sortKey r = 50)
      = (roomsOf exLayC1).filter (fun r => sortKey r = 50) :=
  ⟨by decide,
   (sortRoomsByLastMessage_stable_descending exLayC1 (by decide)).1,
   (sortRoomsByLastMessage_stable_descending exLayC1 (by decide)).2 50⟩

/-- C8: along every sequence of hover-exit events, description updates and
timer firings from a state satisfying the roster invariant, a deferred-resort
timer firing while `isSortPending_` is false changes nothing at all (the
re-run of the sort leaves the already sorted layout in place), while a timer
firing while `isSortPending_` is true performs the sort and clears the flag —
hence only the last timer executing while the flag is true re-orders the
layout, and later pending timers hit the first case. -/
theorem timerFire_noop_when_not_pending (init : RoomListState) (trace : List Ev)
    (hInv : Inv init) :
    ((stepTrace init trace).isSortPending_ = false →
        stepEv (stepTrace init trace) Ev.timerFire = stepTrace init trace) ∧
    ((stepTrace init trace).isSortPending_ = true →
        stepEv (stepTrace init trace) Ev.timerFire
          = { stepTrace init trace with
                isSortPending_ := false,
                layout := sortRoomsByLastMessage (stepTrace init trace).layout }) := by
  have hs : Inv (stepTrace init trace) := inv_stepTrace hInv trace
  constructor
  · intro hp
    exact sortRoomsSlot_id hp hs.1 (hs.2 hp)
  · intro _
    rfl

def exInit8 : RoomListState := ⟨[], [], "", false⟩

theorem timerFire_noop_when_not_pending_witness :
    Inv exInit8 ∧
    stepEv (stepTrace exInit8 [Ev.hoverExit]) Ev.timerFire
      = stepTrace exInit8 [Ev.hoverExit] := by
  have hInv : Inv exInit8 := ⟨List.nodup_nil, fun _ => ⟨rfl, List.Pairwise.nil⟩⟩
  exact ⟨hInv, (timerFire_noop_when_not_pending exInit8 [Ev.hoverExit] hInv).1 rfl⟩

/-- C2: `cleanupInvites` with a non-empty pending set removes exactly the
non-null rooms that are invites and whose id is not in the set — every other
entry (joined rooms, invites still pending, null entries) stays, in order, and
nothing else in the state changes; with an empty set it is a complete no-op. -/
theorem cleanupInvites_spec (s : RoomListState) (invites : List (String × Bool)) :
    (invites = [] → cleanupInvites s invites = s) ∧
    (invites ≠ [] →
      ((cleanupInvites s invites).rooms_.Sublist s.rooms_ ∧
       (∀ rid it, (rid, some it) ∈ s.rooms_ →
         ((rid, some it) ∈ (cleanupInvites s invites).rooms_
           ↔ ¬ (it.isInvite = true ∧ rid ∉ keysOf invites))) ∧
       (∀ rid, (rid, (none : Option RoomItem)) ∈ s.rooms_ →
         (rid, (none : Option RoomItem)) ∈ (cleanupInvites s invites).rooms_) ∧
       (cleanupInvites s invites).selectedRoom_ = s.selectedRoom_ ∧
       (cleanupInvites s invites).isSortPending_ = s.isSortPending_)) := by
  constructor
  · intro h
    subst h
    rfl
  · intro hne
    have hlen : ¬ (invites.length = 0) := by
      intro h0
      exact hne (List.length_eq_zero.mp h0)
    unfold cleanupInvites
    rw [if_neg hlen]
    refine ⟨List.filter_sublist _, ?_, ?_, rfl, rfl⟩
    · intro rid it hm
      constructor
      · intro hmem
        have hpred := (List.mem_filter.mp hmem).2
        exact of_decide_eq_true hpred
      · intro hni
        exact List.mem_filter.mpr ⟨hm, decide_eq_true hni⟩
    · intro rid hm
      exact List.mem_filter.mpr ⟨hm, rfl⟩

def itemInvA : RoomItem := ⟨21, "!inv1", true, 0, false, true, ⟨"", "", 0⟩⟩

def itemInvB : RoomItem := ⟨22, "!inv2", true, 0, false, true, ⟨"", "", 0⟩⟩

def itemJoin : RoomItem := ⟨23, "!j", false, 0, false, true, ⟨"@u", "x", 9⟩⟩

def exS2 : RoomListState :=
  ⟨[("!inv1", some itemInvA), ("!inv2", some itemInvB), ("!j", some itemJoin)],
   [some itemInvA, some itemInvB, some itemJoin], "", false⟩

def exInv2 : List (String × Bool) := [("!inv2", true)]

theorem cleanupInvites_spec_witness :
    ("!inv1", some itemInvA) ∉ (cleanupInvites exS2 exInv2).rooms_ ∧
    ("!inv2", some itemInvB) ∈ (cleanupInvites exS2 exInv2).rooms_ ∧
    ("!j", some itemJoin) ∈ (cleanupInvites exS2 exInv2).rooms_ ∧
    cleanupInvites exS2 [] = exS2 := by
  have h := (cleanupInvites_spec exS2 exInv2).2 (by decide)
  refine ⟨?_, ?_, ?_, (cleanupInvites_spec exS2 []).1 rfl⟩
  · intro hm
    exact (h.2.1 "!inv1" itemInvA (by decide)).mp hm (by decide)
  · exact (h.2.1 "!inv2" itemInvB (by decide)).mpr (by decide)
  · exact (h.2.1 "!j" itemJoin (by decide)).mpr (by decide)

theorem map_upd_id {rid : String} (f : Option RoomItem → Option RoomItem) :
    ∀ {t : List (String × Option RoomItem)}, rid ∉ keysOf t →
      t.map (fun e => if e.1 = rid then (e.1, f e.2) else e) = t := by
  intro t
  induction t with
  | nil => intro _; rfl
  | cons e t ih =>
    intro h
    have h1 : ¬ (e.1 = rid) := by
      intro he
      apply h
      rw [← he]
      exact List.mem_cons_self e.1 (keysOf t)
    rw [List.map_cons, if_neg h1, ih (fun hm => h (List.mem_cons_of_mem _ hm))]

theorem unreadSum_update {rid : String} {count : Int} :
    ∀ (rooms : List (String × Option RoomItem)) (it : RoomItem),
      (keysOf rooms).Nodup → (rid, some it) ∈ rooms →
      unreadSum (rooms.map (fun e =>
          if e.1 = rid then (e.1, e.2.map (fun x => { x with unread := count })) else e))
        = unreadSum rooms - it.unread + count := by
  intro rooms
  induction rooms with
  | nil =>
    intro it _ hm
    cases hm
  | cons e t ih =>
    intro it hnd hm
    obtain ⟨k, v⟩ := e
    rw [show keysOf ((k, v) :: t) = k :: keysOf t from rfl] at hnd
    have hhead := List.nodup_cons.mp hnd
    by_cases hk : k = rid
    · subst hk
      have hv : v = some it := by
        rcases List.mem_cons.mp hm with he | hmem
        · injection he with _ h2
          exact h2.symm
        · exact absurd (List.mem_map_of_mem Prod.fst hmem) hhead.1
      subst hv
      rw [List.map_cons, if_pos rfl, map_upd_id _ hhead.1]
      show count + unreadSum t = (it.unread + unreadSum t) - it.unread + count
      omega
    · have hmem : (rid, some it) ∈ t := by
        rcases List.mem_cons.mp hm with he | hmem
        · exfalso
          injection he with h1 _
          exact hk h1.symm
        · exact hmem
      rw [List.map_cons, if_neg hk]
      cases v with
      | none =>
        show unreadSum (t.map _) = unreadSum t - it.unread + count
        exact ih it hhead.2 hmem
      | some x =>
        show x.unread + unreadSum (t.map _)
            = (x.unread + unreadSum t) - it.unread + count
        rw [ih it hhead.2 hmem]
        omega

/-- C3: `updateUnreadMessageCount` on an unknown id is a pure no-op (warned,
non-fatal, no signal); on a present room it stores the count and emits the new
roster-wide total, which equals the old total minus the room's old count plus
the new one — i.e. the sum of the unread counts over all rooms currently in
the roster. -/
theorem updateUnreadMessageCount_spec (s : RoomListState) (rid : String) (count : Int) :
    (roomExists s.rooms_ rid = false →
        updateUnreadMessageCount s rid count = (s, none)) ∧
    (∀ it : RoomItem, (keysOf s.rooms_).Nodup → (rid, some it) ∈ s.rooms_ →
      ((updateUnreadMessageCount s rid count).2
          = some (unreadSum s.rooms_ - it.unread + count) ∧
       (rid, some { it with unread := count })
          ∈ (updateUnreadMessageCount s rid count).1.rooms_ ∧
       (∀ e ∈ s.rooms_, ¬ (e.1 = rid) →
          e ∈ (updateUnreadMessageCount s rid count).1.rooms_) ∧
       (updateUnreadMessageCount s rid count).1.layout = s.layout ∧
       (updateUnreadMessageCount s rid count).1.selectedRoom_ = s.selectedRoom_)) := by
  constructor
  · intro h
    unfold updateUnreadMessageCount
    rw [if_pos h]
  · intro it hnd hm
    have hkey : rid ∈ keysOf s.rooms_ := List.mem_map_of_mem Prod.fst hm
    have hex : ¬ (roomExists s.rooms_ rid = false) := by
      simp [roomExists, hkey]
    unfold updateUnreadMessageCount
    rw [if_neg hex]
    refine ⟨?_, ?_, ?_, rfl, rfl⟩
    · show some (unreadSum (s.rooms_.map _)) = _
      rw [unreadSum_update s.rooms_ it hnd hm]
    · have himg := List.mem_map_of_mem (fun e =>
        if e.1 = rid then (e.1, e.2.map (fun x => { x with unread := count })) else e) hm
      simpa using himg
    · intro e he hne
      have himg := List.mem_map_of_mem (fun e =>
        if e.1 = rid then (e.1, e.2.map (fun x => { x with unread := count })) else e) he
      simpa [hne] using himg

def exS3 : RoomListState :=
  ⟨[("!a", some itemA1), ("!c", some itemC1)], [some itemA1, some itemC1], "", false⟩

theorem updateUnreadMessageCount_spec_witness :
    updateUnreadMessageCount exS3 "!zz" 5 = (exS3, none) ∧
    (updateUnreadMessageCount exS3 "!a" 7).2
      = some (unreadSum exS3.rooms_ - itemA1.unread + 7) ∧
    ("!a", some { itemA1 with unread := 7 })
      ∈ (updateUnreadMessageCount exS3 "!a" 7).1.rooms_ := by
  have h := (updateUnreadMessageCount_spec exS3 "!a" 7).2 itemA1 (by decide) (by decide)
  exact ⟨(updateUnreadMessageCount_spec exS3 "!zz" 5).1 (by decide), h.1, h.2.1⟩

/-- C4 amended: `removeRoom` never writes `selectedRoom_` at all; in
particular, after removing the last remaining room the previously stored id is
retained unchanged (stale), not cleared. -/
theorem removeRoom_preserves_selectedRoom (s : RoomListState) (rid : String)
    (reset : Bool) :
    (removeRoom s rid reset).1.selectedRoom_ = s.selectedRoom_ := by
  unfold removeRoom
  split
  · rfl
  · split <;> rfl

def exS4 : RoomListState := ⟨[("!a", some itemA1)], [some itemA1], "!a", false⟩

/-- C4 counterexample: removing the last room empties the roster, yet
`selectedRoom_` still holds the removed room's id — it is not cleared. -/
theorem removeRoom_empty_selected_not_cleared :
    (removeRoom exS4 "!a" true).1.rooms_ = [] ∧
    (removeRoom exS4 "!a" true).1.selectedRoom_ = "!a" ∧
    ¬ ((removeRoom exS4 "!a" true).1.selectedRoom_ = "") := by decide

theorem firstRoom_append_nulls :
    ∀ (pre : List (String × Option RoomItem)) (k : String) (it : RoomItem)
      (rest : List (String × Option RoomItem)),
      (∀ e ∈ pre, e.2 = (none : Option RoomItem)) →
      firstRoom (pre ++ (k, some it) :: rest) = some (k, it) := by
  intro pre
  induction pre with
  | nil => intro k it rest _; rfl
  | cons e p ih =>
    intro k it rest h
    obtain ⟨ke, ve⟩ := e
    have hv : ve = none := h (ke, ve) (List.mem_cons_self _ _)
    subst hv
    rw [List.cons_append]
    show firstRoom (p ++ (k, some it) :: rest) = some (k, it)
    exact ih k it rest (fun e he => h e (List.mem_cons_of_mem _ he))

/-- C5 amended: when `remove(id, true)` leaves a non-empty roster whose
entries before the first non-null item (in the map's ascending-key order) are
all null, the room it marks pressed and announces via `roomChanged` is that
first non-null entry of the `rooms_` map — the lexicographically first id —
not the first room of the layout (display sort) order. -/
theorem removeRoom_selects_first_map_entry (s : RoomListState) (rid : String)
    (pre : List (String × Option RoomItem)) (k : String) (it : RoomItem)
    (rest : List (String × Option RoomItem))
    (hshape : mapErase s.rooms_ rid = pre ++ (k, some it) :: rest)
    (hpre : ∀ e ∈ pre, e.2 = (none : Option RoomItem)) :
    (removeRoom s rid true).2 = some k ∧
    (k, some { it with pressed := true }) ∈ (removeRoom s rid true).1.rooms_ := by
  unfold removeRoom
  rw [if_neg (by simp [hshape]), hshape, firstRoom_append_nulls pre k it rest hpre]
  refine ⟨rfl, ?_⟩
  show (k, some { it with pressed := true })
      ∈ setPressedInMap (pre ++ (k, some it) :: rest) k true
  unfold setPressedInMap
  have hmem : (k, some it) ∈ pre ++ (k, some it) :: rest :=
    List.mem_append_right _ (List.mem_cons_self _ _)
  have himg := List.mem_map_of_mem (fun e =>
    if e.1 = k then (e.1, e.2.map (fun x => { x with pressed := true })) else e) hmem
  have heq : ((fun e =>
      if e.1 = k then (e.1, e.2.map (fun x => { x with pressed := true })) else e)
        ((k, some it) : String × Option RoomItem))
      = (k, some { it with pressed := true }) := by
    simp
  rw [← heq]
  exact himg

def itemA5 : RoomItem := ⟨11, "!a", false, 0, false, true, ⟨"@u", "m", 5⟩⟩

def itemB5 : RoomItem := ⟨12, "!b", false, 0, false, true, ⟨"@v", "n", 100⟩⟩

def itemC5 : RoomItem := ⟨13, "!c", false, 0, false, true, ⟨"@w", "o", 1⟩⟩

def exS5 : RoomListState :=
  ⟨[("!a", some itemA5), ("!b", some itemB5), ("!c", some itemC5)],
   [some itemB5, some itemA5, some itemC5], "!b", false⟩

/-- The claim-side notion "first room in the current sort order, skipping any
null item": the first room of the layout sequence. -/
def firstRoomInSortOrder (lay : List (Option RoomItem)) : Option String :=
  (roomsOf lay).head?.map RoomItem.roomId

/-- C5 counterexample: after removing room "!c" the layout (the current sort
order, which is sorted: "!b" has timestamp 100, "!a" has 5) starts with "!b",
but `removeRoom` announces "!a", the smallest id in the `rooms_` map — the
selected room is not the first room in the current sort order. -/
theorem removeRoom_not_sort_order_cx :
    (removeRoom exS5 "!c" true).1.rooms_ ≠ [] ∧
    LayoutSorted (removeRoom exS5 "!c" true).1.layout ∧
    (removeRoom exS5 "!c" true).2 = some "!a" ∧
    firstRoomInSortOrder (removeRoom exS5 "!c" true).1.layout = some "!b" ∧
    ¬ ((removeRoom exS5 "!c" true).2
        = firstRoomInSortOrder (removeRoom exS5 "!c" true).1.layout) := by decide

theorem removeRoom_selects_first_map_entry_witness :
    (removeRoom exS5 "!c" true).2 = some "!a" ∧
    ("!a", some { itemA5 with pressed := true })
      ∈ (removeRoom exS5 "!c" true).1.rooms_ :=
  removeRoom_selects_first_map_entry exS5 "!c" [] "!a" itemA5
    [("!b", some itemB5)] (by decide) (fun e he => absurd he (List.not_mem_nil e))

def exS9 : RoomListState := ⟨[("!a", none), ("!b", none)], [], "", false⟩

/-- C9: the iterator scan of `firstRoom` stays in bounds exactly when the
roster holds at least one non-null item — the loop tests the entry for
nullness before testing for `end()`, so on an empty roster, or a non-empty
roster whose entries are all null, it dereferences the end iterator.
`removeRoom` guards the call only with non-emptiness (plus `reset`), so an
all-null roster passes its guard while the scan is unsafe; `initialize` guards
the call with the same `rooms_.empty()` test. -/
theorem firstRoom_scan_safety :
    (∀ rooms : List (String × Option RoomItem),
        firstRoomScanSafe rooms = true ↔ ∃ e ∈ rooms, e.2.isSome = true) ∧
    removeRoomReachesFirstRoom exS9 "!z" true = true ∧
    firstRoomScanSafe (mapErase exS9.rooms_ "!z") = false := by
  refine ⟨?_, by decide, by decide⟩
  intro rooms
  induction rooms with
  | nil => simp [firstRoomScanSafe]
  | cons e t ih =>
    obtain ⟨k, v⟩ := e
    cases v with
    | none =>
      rw [show firstRoomScanSafe ((k, none) :: t) = firstRoomScanSafe t from rfl, ih]
      constructor
      · rintro ⟨e, he, h⟩
        exact ⟨e, List.mem_cons_of_mem _ he, h⟩
      · rintro ⟨e, he, h⟩
        rcases List.mem_cons.mp he with he2 | he2
        · subst he2
          simp at h
        · exact ⟨e, he2, h⟩
    | some x =>
      rw [show firstRoomScanSafe ((k, some x) :: t) = true from rfl]
      constructor
      · intro _
        exact ⟨(k, some x), List.mem_cons_self _ _, rfl⟩
      · intro _
        rfl

/-- C10: `highlightSelectedRoom` emits `roomChanged` for the requested id
before checking whether the id exists (the signal list is `[rid]` in every
case), and on an unknown id it then only logs a warning and leaves the whole
state — the stored selected id and every item's pressed flag — unchanged. -/
theorem highlightSelectedRoom_emits_unconditionally (s : RoomListState) (rid : String) :
    (highlightSelectedRoom s rid).2 = [rid] ∧
    (roomExists s.rooms_ rid = false → highlightSelectedRoom s rid = (s, [rid])) := by
  constructor
  · unfold highlightSelectedRoom
    split <;> rfl
  · intro h
    unfold highlightSelectedRoom
    rw [if_pos h]

theorem highlightSelectedRoom_emits_unconditionally_witness :
    (highlightSelectedRoom exS4 "!zz").2 = ["!zz"] ∧
    highlightSelectedRoom exS4 "!zz" = (exS4, ["!zz"]) :=
  ⟨(highlightSelectedRoom_emits_unconditionally exS4 "!zz").1,
   (highlightSelectedRoom_emits_unconditionally exS4 "!zz").2 (by decide)⟩

/-- C7: `removeFilter` makes every room visible and changes nothing else: the
rooms keep every other field and their order in the layout, and the roster
map, the selected room and the pending flag are untouched (no selection
re-evaluation, no signals). -/
theorem removeFilter_identity_frame (s : RoomListState) :
    (∀ it : RoomItem, some it ∈ (removeFilter s).layout → it.visible = true) ∧
    (roomsOf (removeFilter s).layout).map
        (fun it => (it.wid, it.roomId, it.isInvite, it.unread, it.pressed, it.lastMsg))
      = (roomsOf s.layout).map
        (fun it => (it.wid, it.roomId, it.isInvite, it.unread, it.pressed, it.lastMsg)) ∧
    (removeFilter s).rooms_ = s.rooms_ ∧
    (removeFilter s).selectedRoom_ = s.selectedRoom_ ∧
    (removeFilter s).isSortPending_ = s.isSortPending_ := by
  refine ⟨?_, ?_, rfl, rfl, rfl⟩
  · intro it hm
    rcases List.mem_map.mp hm with ⟨o, _, he⟩
    cases o with
    | none => simp at he
    | some x =>
      rw [show Option.map (fun it => ({ it with visible := true } : RoomItem)) (some x)
          = some ({ x with visible := true } : RoomItem) from rfl] at he
      rw [← Option.some.inj he]
  · show (roomsOf (s.layout.map (Option.map (fun it => { it with visible := true })))).map _
        = _
    rw [roomsOf_map_optionMap, List.map_map]
    rfl

theorem highlight_layout (s : RoomListState) (rid : String) :
    (highlightSelectedRoom s rid).1.layout = s.layout := by
  unfold highlightSelectedRoom
  split <;> rfl

theorem selectFirstVisible_layout (s : RoomListState) :
    (selectFirstVisibleRoom s).1.layout = s.layout := by
  unfold selectFirstVisibleRoom
  split
  · rfl
  · exact highlight_layout _ _

theorem applyFilter_layout (s : RoomListState) (flt : List (String × Bool)) :
    (applyFilter s flt).1.layout = applyVisibility s.layout flt := by
  unfold applyFilter
  split
  · rfl
  · exact selectFirstVisible_layout _

theorem mem_applyVisibility {lay : List (Option RoomItem)} {flt : List (String × Bool)}
    {it : RoomItem} (hm : some it ∈ applyVisibility lay flt) :
    it.visible = true ↔ it.roomId ∈ keysOf flt := by
  rcases List.mem_map.mp hm with ⟨o, _, he⟩
  cases o with
  | none => simp at he
  | some x =>
    rw [Option.map_some'] at he
    have hit : it = (if x.roomId ∈ keysOf flt then ({ x with visible := true } : RoomItem)
        else { x with visible := false }) := (Option.some.inj he).symm
    by_cases hmem : x.roomId ∈ keysOf flt
    · rw [hit, if_pos hmem]
      simp [hmem]
    · rw [hit, if_neg hmem]
      simp [hmem]

theorem firstVisible_applyVisibility (flt : List (String × Bool)) :
    ∀ (pre : List (Option RoomItem)) (it : RoomItem) (rest : List (Option RoomItem)),
      (∀ o ∈ pre, ∀ x : RoomItem, o = some x → x.roomId ∉ keysOf flt) →
      it.roomId ∈ keysOf flt →
      firstVisible (applyVisibility (pre ++ some it :: rest) flt)
        = some { it with visible := true } := by
  intro pre
  induction pre with
  | nil =>
    intro it rest _ hmem
    have hred : applyVisibility (([] : List (Option RoomItem)) ++ some it :: rest) flt
        = some (if it.roomId ∈ keysOf flt then ({ it with visible := true } : RoomItem)
            else { it with visible := false }) :: applyVisibility rest flt := rfl
    rw [hred, if_pos hmem]
    rfl
  | cons o p ih =>
    intro it rest hpre hmem
    cases o with
    | none =>
      exact ih it rest (fun o ho x hx => hpre o (List.mem_cons_of_mem _ ho) x hx) hmem
    | some x =>
      have hx : x.roomId ∉ keysOf flt := hpre (some x) (List.mem_cons_self _ _) x rfl
      have hred : applyVisibility ((some x :: p) ++ some it :: rest) flt
          = some (if x.roomId ∈ keysOf flt then ({ x with visible := true } : RoomItem)
              else { x with visible := false }) :: applyVisibility (p ++ some it :: rest) flt :=
        rfl
      rw [hred, if_neg hx]
      rw [show firstVisible (some ({ x with visible := false } : RoomItem)
          :: applyVisibility (p ++ some it :: rest) flt)
          = firstVisible (applyVisibility (p ++ some it :: rest) flt) from rfl]
      exact ih it rest (fun o ho y hy => hpre o (List.mem_cons_of_mem _ ho) y hy) hmem

theorem highlight_selected_set (s : RoomListState) (rid : String)
    (hex : roomExists s.rooms_ rid = true) :
    (highlightSelectedRoom s rid).1.selectedRoom_ = rid ∧
    (highlightSelectedRoom s rid).2 = [rid] := by
  unfold highlightSelectedRoom
  rw [if_neg (by simp [hex])]
  exact ⟨rfl, rfl⟩

/-- C6: after `applyFilter` a room in the layout is visible exactly when its
id is a key of the filter map (the mapped value plays no role); when a room is
selected and its id is still a key, nothing further happens (selection and
roster untouched, no signal); otherwise the first layout room whose id is a
key of the filter — the first visible room in the current sort order — becomes
the selected room and is announced, and when no room is visible no selection
change is attempted and no signal is emitted. -/
theorem applyFilter_visibility_selection (s : RoomListState) (flt : List (String × Bool)) :
    (∀ it : RoomItem, some it ∈ (applyFilter s flt).1.layout →
        (it.visible = true ↔ it.roomId ∈ keysOf flt)) ∧
    (¬ (s.selectedRoom_ = "") → s.selectedRoom_ ∈ keysOf flt →
        ((applyFilter s flt).1.rooms_ = s.rooms_ ∧
         (applyFilter s flt).1.selectedRoom_ = s.selectedRoom_ ∧
         (applyFilter s flt).2 = [])) ∧
    (¬ (¬ (s.selectedRoom_ = "") ∧ s.selectedRoom_ ∈ keysOf flt) →
      ((firstVisible (applyVisibility s.layout flt) = none →
          ((applyFilter s flt).1.rooms_ = s.rooms_ ∧
           (applyFilter s flt).1.selectedRoom_ = s.selectedRoom_ ∧
           (applyFilter s flt).2 = [])) ∧
       (∀ (pre : List (Option RoomItem)) (it : RoomItem) (rest : List (Option RoomItem)),
          s.layout = pre ++ some it :: rest →
          (∀ o ∈ pre, ∀ x : RoomItem, o = some x → x.roomId ∉ keysOf flt) →
          it.roomId ∈ keysOf flt →
          roomExists s.rooms_ it.roomId = true →
          ((applyFilter s flt).1.selectedRoom_ = it.roomId ∧
           (applyFilter s flt).2 = [it.roomId])))) := by
  refine ⟨?_, ?_, ?_⟩
  · intro it hm
    rw [applyFilter_layout] at hm
    exact mem_applyVisibility hm
  · intro h1 h2
    unfold applyFilter
    rw [if_pos ⟨h1, h2⟩]
    exact ⟨rfl, rfl, rfl⟩
  · intro hcond
    constructor
    · intro hnone
      unfold applyFilter
      rw [if_neg hcond]
      unfold selectFirstVisibleRoom
      rw [show ({ s with layout := applyVisibility s.layout flt } : RoomListState).layout
          = applyVisibility s.layout flt from rfl, hnone]
      exact ⟨rfl, rfl, rfl⟩
    · intro pre it rest hlay hpre hmem hex
      have hfv : firstVisible (applyVisibility s.layout flt)
          = some { it with visible := true } := by
        rw [hlay]
        exact firstVisible_applyVisibility flt pre it rest hpre hmem
      unfold applyFilter
      rw [if_neg hcond]
      unfold selectFirstVisibleRoom
      rw [show ({ s with layout := applyVisibility s.layout flt } : RoomListState).layout
          = applyVisibility s.layout flt from rfl, hfv]
      exact highlight_selected_set { s with layout := applyVisibility s.layout flt }
        it.roomId hex

def itemA6 : RoomItem := ⟨31, "!a", false, 0, false, true, ⟨"@u", "m", 5⟩⟩

def itemB6 : RoomItem := ⟨32, "!b", false, 0, false, true, ⟨"@v", "n", 3⟩⟩

def exS6 : RoomListState :=
  ⟨[("!a", some itemA6), ("!b", some itemB6)], [some itemA6, some itemB6], "!a", false⟩

def exFlt6 : List (String × Bool) := [("!b", false)]

def exFlt6b : List (String × Bool) := [("!a", true)]

theorem applyFilter_visibility_selection_witness :
    ((applyFilter exS6 exFlt6).1.selectedRoom_ = "!b" ∧
     (applyFilter exS6 exFlt6).2 = ["!b"]) ∧
    ((applyFilter exS6 exFlt6b).1.selectedRoom_ = "!a" ∧
     (applyFilter exS6 exFlt6b).2 = []) := by
  constructor
  · have h := (applyFilter_visibility_selection exS6 exFlt6).2.2 (by decide)
    refine h.2 [some itemA6] itemB6 [] rfl ?_ (by decide) (by decide)
    intro o ho x hx
    rcases List.mem_cons.mp ho with h1 | h1
    · rw [h1] at hx
      rw [← Option.some.inj hx]
      decide
    · cases h1
  · have h := (applyFilter_visibility_selection exS6 exFlt6b).2.1 (by decide) (by decide)
    exact ⟨h.2.1, h.2.2⟩
